import Mathlib

/-!
# Verification of the Lafz-Vigyan Punjabi analysis pipeline

Shallow embedding of the core pipeline of `app.py`: emoji extraction and
removal, `\w+` word tokenization with a numeric-token filter
(`clean_text_gurmukhi`), classification of words against a fixed lexicon,
and the divergence-score computation (`calculate_evolution_score`).

Texts are `List Char`.  The CPython character classifications the source
relies on (`re`'s `\w`, `str.isnumeric`, `str.isspace`) are embedded for
the character repertoire this development uses: ASCII, Latin-1, the
Gurmukhi block U+0A00–U+0A7F, the number-form block U+2150–U+2189, and the
emoji U+1F60A.  The code-point ranges below were read off CPython 3.11's
Unicode database.  Note that in CPython, `\w` matches underscore and every
alphanumeric character (categories Lu/Ll/Lt/Lm/Lo plus every character
with a numeric value), but it does NOT match combining marks (Mn/Mc), so
Gurmukhi vowel signs and bindi break word runs.
-/

namespace LafzVigyan

/-- CPython `\w` (word character) on the modelled repertoire: underscore or
`str.isalnum`.  Combining marks such as the Gurmukhi vowel signs
U+0A3E–U+0A4D and bindi U+0A02 are NOT word characters in CPython's `re`. -/
def isWordChar (c : Char) : Bool :=
  let n := c.toNat
  -- ASCII: digits, letters, underscore
  (0x30 ≤ n && n ≤ 0x39) || (0x41 ≤ n && n ≤ 0x5A) || n == 0x5F ||
  (0x61 ≤ n && n ≤ 0x7A) ||
  -- Latin-1 letters and numeric forms (ª ² ³ µ ¹ º ¼ ½ ¾ À–ÿ)
  n == 0xAA || (0xB2 ≤ n && n ≤ 0xB3) || n == 0xB5 ||
  (0xB9 ≤ n && n ≤ 0xBA) || (0xBC ≤ n && n ≤ 0xBE) ||
  (0xC0 ≤ n && n ≤ 0xD6) || (0xD8 ≤ n && n ≤ 0xF6) ||
  (0xF8 ≤ n && n ≤ 0xFF) ||
  -- Gurmukhi letters (category Lo) and digits (category Nd); the block's
  -- combining marks (U+0A01–U+0A03, U+0A3C, U+0A3E–U+0A51, U+0A70, U+0A71,
  -- U+0A75) are excluded, matching CPython
  (0xA05 ≤ n && n ≤ 0xA0A) || (0xA0F ≤ n && n ≤ 0xA10) ||
  (0xA13 ≤ n && n ≤ 0xA28) || (0xA2A ≤ n && n ≤ 0xA30) ||
  (0xA32 ≤ n && n ≤ 0xA33) || (0xA35 ≤ n && n ≤ 0xA36) ||
  (0xA38 ≤ n && n ≤ 0xA39) || (0xA59 ≤ n && n ≤ 0xA5C) || n == 0xA5E ||
  (0xA66 ≤ n && n ≤ 0xA6F) || (0xA72 ≤ n && n ≤ 0xA74) ||
  -- Number forms: fractions and Roman numerals (⅐ … Ⅻ … ↉)
  (0x2150 ≤ n && n ≤ 0x2189)

/-- CPython `str.isnumeric` at a single character (Unicode `Numeric_Type`
is Decimal, Digit or Numeric) on the modelled repertoire.  Strictly larger
than the decimal digits: it also holds of superscripts, vulgar fractions
and Roman numerals. -/
def pyIsNumericChar (c : Char) : Bool :=
  let n := c.toNat
  (0x30 ≤ n && n ≤ 0x39) ||
  (0xB2 ≤ n && n ≤ 0xB3) || n == 0xB9 || (0xBC ≤ n && n ≤ 0xBE) ||
  (0xA66 ≤ n && n ≤ 0xA6F) ||
  (0x2150 ≤ n && n ≤ 0x2182) || (0x2185 ≤ n && n ≤ 0x2189)

/-- CPython `str.isnumeric` on a whole token: non-empty and every character
numeric. -/
def pyIsNumeric (w : List Char) : Bool :=
  !w.isEmpty && w.all pyIsNumericChar

/-- CPython whitespace (`str.isspace` / default `str.strip`). -/
def pyIsSpace (c : Char) : Bool :=
  let n := c.toNat
  (0x09 ≤ n && n ≤ 0x0D) || (0x1C ≤ n && n ≤ 0x1F) || n == 0x20 ||
  n == 0x85 || n == 0xA0 || n == 0x1680 ||
  (0x2000 ≤ n && n ≤ 0x200A) || (0x2028 ≤ n && n ≤ 0x2029) ||
  n == 0x202F || n == 0x205F || n == 0x3000

/-- CPython `str.strip()` with no argument: remove leading and trailing
whitespace. -/
def pyStrip (s : List Char) : List Char :=
  ((s.dropWhile pyIsSpace).reverse.dropWhile pyIsSpace).reverse

/-- Fuel-indexed body of `findWords`.  The fuel bounds the length of the
remaining text, which makes the recursion structural (and hence kernel-
computable); `findWordsF_congr` below shows any sufficient fuel gives the
same answer. -/
def findWordsF : ℕ → List Char → List (List Char)
  | 0, _ => []
  | fuel + 1, s =>
    match s with
    | [] => []
    | c :: rest =>
      if isWordChar c then
        (c :: rest.takeWhile isWordChar) ::
          findWordsF fuel (rest.dropWhile isWordChar)
      else
        findWordsF fuel rest

/-- `re.findall(r'\w+', s)`: the maximal runs of word characters of `s`,
left to right. -/
def findWords (s : List Char) : List (List Char) :=
  findWordsF s.length s

/-- `seqMatches e s`: the sequence `e` occurs at the start of `s`
(character-wise comparison, as the `emoji` library's trie walk does). -/
def seqMatches : List Char → List Char → Bool
  | [], _ => true
  | _ :: _, [] => false
  | a :: e, b :: s => a == b && seqMatches e s

/-- The longest non-empty sequence of `E` that occurs at the start of `s`,
if any.  This models the `emoji` library's scanner, which at each position
matches the longest known emoji sequence from its `EMOJI_DATA` table. -/
def bestMatch (E : List (List Char)) (s : List Char) : Option (List Char) :=
  match E with
  | [] => none
  | e :: E =>
    let b := bestMatch E s
    if !e.isEmpty && seqMatches e s then
      match b with
      | none => some e
      | some b => if b.length < e.length then some e else some b
    else b

/-- Fuel-indexed body of `scanEmoji`; the fuel bounds the length of the
remaining text, making the recursion structural and kernel-computable. -/
def scanEmojiF (E : List (List Char)) : ℕ → List Char →
    List (List Char) × List Char
  | 0, _ => ([], [])
  | fuel + 1, s =>
    match s with
    | [] => ([], [])
    | c :: rest =>
      match bestMatch E (c :: rest) with
      | some e =>
        let r := scanEmojiF E fuel ((c :: rest).drop e.length)
        (e :: r.1, r.2)
      | none =>
        let r := scanEmojiF E fuel rest
        (r.1, c :: r.2)

/-- One left-to-right scan of the text, as the `emoji` library performs it:
at each position, match the longest known emoji sequence; on a match,
record the symbol and skip past the matched region; otherwise keep the
character.  Returns (symbols in order, residual text). -/
def scanEmoji (E : List (List Char)) (s : List Char) :
    List (List Char) × List Char :=
  scanEmojiF E s.length s

/-- `emoji.emoji_list` projected to the emoji strings themselves
(`[char['emoji'] for char in emoji.emoji_list(text)]`). -/
def extract_emojis (E : List (List Char)) (text : List Char) :
    List (List Char) :=
  (scanEmoji E text).1

/-- `emoji.replace_emoji(text, replace='')`: the text with every matched
emoji region removed. -/
def replace_emoji (E : List (List Char)) (text : List Char) : List Char :=
  (scanEmoji E text).2

/-- `clean_text_gurmukhi` from `app.py`: strip emojis, extract `\w+` runs,
then drop the tokens `w` with `w.isnumeric()`. -/
def clean_text_gurmukhi (E : List (List Char)) (text : List Char) :
    List (List Char) :=
  let text_no_emoji := replace_emoji E text
  let words := findWords text_no_emoji
  words.filter (fun w => !pyIsNumeric w)

/-- `calculate_evolution_score` from `app.py`.  Python computes
`(neologism_count / total_words) * 100` in real (float) arithmetic; the
embedding uses exact rationals. -/
def calculate_evolution_score (neologism_count total_words : ℕ) : ℚ :=
  if total_words = 0 then 0
  else ((neologism_count : ℚ) / (total_words : ℚ)) * 100

/-- The classification loop of `main` (lines 119–126 of `app.py`): walk the
words in order, counting the ones in the lexicon and collecting the others,
in order, as neologisms.  Returns (neologisms, known_count). -/
def classifyLoop (lexicon : List (List Char)) (all_words : List (List Char)) :
    List (List Char) × ℕ :=
  all_words.foldl
    (fun acc word =>
      if word ∈ lexicon then (acc.1, acc.2 + 1) else (acc.1 ++ [word], acc.2))
    ([], 0)

/-- The analysis results `main` computes and displays. -/
structure Report where
  total_word_count : ℕ
  known_count : ℕ
  neologisms : List (List Char)
  all_emojis : List (List Char)
  evolution_score : ℚ
deriving DecidableEq, Repr

/-- The error taxonomy of the analysis entry point.  `emptyInput` embeds the
blank-input branch of `main` (`st.warning` + early return, no report). -/
inductive AnalysisError where
  | emptyInput
deriving DecidableEq, Repr

/-- The analysis body of `main` (lines 106–132 of `app.py`): clean the text,
list the emojis, drop words that strip to nothing, classify against the
lexicon, and compute the evolution score. -/
def analyzeCore (E : List (List Char)) (lexicon : List (List Char))
    (user_input : List Char) : Report :=
  let all_words_raw := clean_text_gurmukhi E user_input
  let all_emojis := extract_emojis E user_input
  let all_words := all_words_raw.filter (fun w => !(pyStrip w).isEmpty)
  let total_word_count := all_words.length
  let classified := classifyLoop lexicon all_words
  let neologisms := classified.1
  let known_count := classified.2
  let neologism_total_count := neologisms.length
  let evolution_score :=
    calculate_evolution_score neologism_total_count total_word_count
  { total_word_count := total_word_count
    known_count := known_count
    neologisms := neologisms
    all_emojis := all_emojis
    evolution_score := evolution_score }

/-- `main`'s analysis path: blank or whitespace-only input is rejected
before any computation (`if not user_input.strip(): st.warning(...);
return`); otherwise the analysis body runs and a report is produced. -/
def main (E : List (List Char)) (lexicon : List (List Char))
    (user_input : List Char) : Except AnalysisError Report :=
  if (pyStrip user_input).isEmpty then .error .emptyInput
  else .ok (analyzeCore E lexicon user_input)

/-- `STANDARD_PUNJABI_DICT` from `app.py`, as lists of characters. -/
def STANDARD_PUNJABI_DICT : List (List Char) :=
  ([ "ਮੈਂ", "ਤੂੰ", "ਅਸੀਂ", "ਤੁਸੀਂ", "ਉਹ", "ਹਾਂ", "ਸੀ", "ਨੇ", "ਨੂੰ", "ਦਾ", "ਦੇ", "ਦੀ", "ਵਿੱਚ", "ਤੇ", "ਅਤੇ",
     "ਪਰ", "ਜਾਂ", "ਕਿਉਂਕਿ", "ਜਦੋਂ", "ਤਦ", "ਹੁਣ", "ਕੱਲ੍ਹ", "ਅੱਜ", "ਸਾਡਾ", "ਤੁਹਾਡਾ", "ਮੇਰਾ", "ਕੀ", "ਕਿਵੇਂ",
     "ਕਿੱਥੇ", "ਕੌਣ", "ਜਾ", "ਆ", "ਖਾ", "ਪੀ", "ਸੌਂ", "ਰਹਿ", "ਕਰ", "ਦੇਖ", "ਸੁਣ", "ਬੋਲ", "ਲਿਖ", "ਪੜ੍ਹ",
     "ਘਰ", "ਸਕੂਲ", "ਕੰਮ", "ਪਾਣੀ", "ਰੋਟੀ", "ਚਾਹ", "ਦੁੱਧ", "ਮਾਂ", "ਪਿਓ", "ਭਰਾ", "ਭੈਣ", "ਦੋਸਤ", "ਮਿੱਤਰ",
     "ਖੁਸ਼ੀ", "ਗ਼ਮ", "ਪਿਆਰ", "ਨਫ਼ਰਤ", "ਜ਼ਿੰਦਗੀ", "ਮੌਤ", "ਸੱਚ", "ਝੂਠ", "ਦਿਨ", "ਰਾਤ", "ਸਵੇਰ", "ਸ਼ਾਮ",
     "ਵਧੀਆ", "ਮਾੜਾ", "ਚੰਗਾ", "ਸੋਹਣਾ", "ਵੱਡਾ", "ਛੋਟਾ", "ਨਵਾਂ", "ਪੁਰਾਣਾ", "ਲਾਲ", "ਕਾਲਾ", "ਚਿੱਟਾ", "ਨੀਲਾ",
     "ਇੱਕ", "ਦੋ", "ਤਿੰਨ", "ਚਾਰ", "ਪੰਜ", "ਦਸ", "ਸੌ", "ਹਜ਼ਾਰ", "ਲੱਖ", "ਕਰੋੜ",
     "ਭਾਰਤ", "ਪੰਜਾਬ", "ਦੁਨੀਆ", "ਧਰਤੀ", "ਅਸਮਾਨ", "ਸੂਰਜ", "ਚੰਦ", "ਤਾਰੇ", "ਹਵਾ", "ਅੱਗ",
     "ਕਿਤਾਬ", "ਕਾਪੀ", "ਕਲਮ", "ਫੋਨ", "ਗੱਡੀ", "ਬੱਸ", "ਰੇਲ", "ਜਹਾਜ਼", "ਰਸਤਾ", "ਸ਼ਹਿਰ", "ਪਿੰਡ"
   ] : List String).map String.toList

/-- The `emoji` library's table restricted to the one emoji this
development needs: U+1F60A SMILING FACE WITH SMILING EYES is in
`EMOJI_DATA`. -/
def emojiTable : List (List Char) := [['😊']]

/-- The input of the spec's worked scenario. -/
def scenarioInput : List Char := String.toList "ਮੈਂ ਘਰ ਜਾ ਰਿਹਾ ਹਾਂ 😊"

/-- `MaxRuns s ws`: `ws` is, in left-to-right order, the list of maximal
runs of word characters of `s`.  A run must be non-empty, consist of word
characters only, and be followed by a non-word character or the end of the
text; characters outside runs are skipped one at a time.  This is the
specification the tokenizer is proved against. -/
inductive MaxRuns : List Char → List (List Char) → Prop where
  | nil : MaxRuns [] []
  | skip {c : Char} {s : List Char} {ws : List (List Char)} :
      ¬ isWordChar c → MaxRuns s ws → MaxRuns (c :: s) ws
  | run {w s : List Char} {ws : List (List Char)} :
      w ≠ [] → (∀ c ∈ w, isWordChar c) →
      (∀ c ∈ s.head?, ¬ isWordChar c) →
      MaxRuns s ws → MaxRuns (w ++ s) (w :: ws)

/-- Follows the spec's words, for comparison with the code: a "decimal
digit" is a character of Unicode general category Nd; on the modelled
repertoire these are the ASCII and the Gurmukhi digits. -/
def specIsDecimalDigit (c : Char) : Bool :=
  let n := c.toNat
  (0x30 ≤ n && n ≤ 0x39) || (0xA66 ≤ n && n ≤ 0xA6F)

/-- Follows the spec's words, for comparison with the code: a character
"Unicode-classified as a letter or digit", i.e. of general category
Lu/Ll/Lt/Lm/Lo or Nd, on the modelled repertoire.  Underscore, fractions
and Roman numerals are not letters or digits. -/
def specIsLetterOrDigit (c : Char) : Bool :=
  let n := c.toNat
  (0x30 ≤ n && n ≤ 0x39) || (0x41 ≤ n && n ≤ 0x5A) ||
  (0x61 ≤ n && n ≤ 0x7A) ||
  n == 0xAA || n == 0xB5 || n == 0xBA ||
  (0xC0 ≤ n && n ≤ 0xD6) || (0xD8 ≤ n && n ≤ 0xF6) ||
  (0xF8 ≤ n && n ≤ 0xFF) ||
  (0xA05 ≤ n && n ≤ 0xA0A) || (0xA0F ≤ n && n ≤ 0xA10) ||
  (0xA13 ≤ n && n ≤ 0xA28) || (0xA2A ≤ n && n ≤ 0xA30) ||
  (0xA32 ≤ n && n ≤ 0xA33) || (0xA35 ≤ n && n ≤ 0xA36) ||
  (0xA38 ≤ n && n ≤ 0xA39) || (0xA59 ≤ n && n ≤ 0xA5C) || n == 0xA5E ||
  (0xA66 ≤ n && n ≤ 0xA6F) || (0xA72 ≤ n && n ≤ 0xA74)

/-! ## Unfolding equations for the fuel-indexed recursions -/

theorem findWordsF_congr :
    ∀ f g s, s.length ≤ f → s.length ≤ g → findWordsF f s = findWordsF g s := by
  intro f
  induction f with
  | zero =>
    intro g s hf _
    have : s = [] := List.length_eq_zero.mp (Nat.le_zero.mp hf)
    subst this
    cases g <;> rfl
  | succ f ih =>
    intro g s hf hg
    match s with
    | [] => cases g <;> rfl
    | c :: rest =>
      have h1 : 1 ≤ g := le_trans (by simp) hg
      obtain ⟨g, rfl⟩ : ∃ gp, g = gp + 1 := ⟨g - 1, by omega⟩
      simp only [findWordsF]
      have hf1 : rest.length ≤ f := by simpa using hf
      have hg1 : rest.length ≤ g := by simpa using hg
      have hd : (rest.dropWhile isWordChar).length ≤ rest.length :=
        (List.dropWhile_sublist _).length_le
      by_cases hc : isWordChar c
      · rw [if_pos hc, if_pos hc,
          ih g _ (le_trans hd hf1) (le_trans hd hg1)]
      · rw [if_neg hc, if_neg hc, ih g rest hf1 hg1]

theorem findWords_nil : findWords [] = [] := rfl

theorem findWords_cons_pos {c : Char} {rest : List Char}
    (hc : isWordChar c) :
    findWords (c :: rest) =
      (c :: rest.takeWhile isWordChar) ::
        findWords (rest.dropWhile isWordChar) := by
  have hd : (rest.dropWhile isWordChar).length ≤ rest.length :=
    (List.dropWhile_sublist _).length_le
  simp only [findWords, List.length_cons, findWordsF, if_pos hc]
  rw [findWordsF_congr rest.length (rest.dropWhile isWordChar).length _ hd
    le_rfl]

theorem findWords_cons_neg {c : Char} {rest : List Char}
    (hc : ¬ isWordChar c) :
    findWords (c :: rest) = findWords rest := by
  simp only [findWords, List.length_cons, findWordsF, if_neg hc]

theorem seqMatches_length :
    ∀ {e s : List Char}, seqMatches e s = true → e.length ≤ s.length := by
  intro e
  induction e with
  | nil => intro s _; simp
  | cons a e ih =>
    intro s h
    match s with
    | [] => simp [seqMatches] at h
    | b :: s =>
      simp only [seqMatches, Bool.and_eq_true] at h
      simpa using ih h.2

theorem bestMatch_some {E : List (List Char)} {s e : List Char}
    (h : bestMatch E s = some e) : e ≠ [] ∧ e.length ≤ s.length := by
  induction E with
  | nil => simp [bestMatch] at h
  | cons e0 E ih =>
    simp only [bestMatch] at h
    by_cases hc : (!e0.isEmpty && seqMatches e0 s) = true
    · rw [if_pos hc] at h
      have he0 : e0 ≠ [] ∧ e0.length ≤ s.length := by
        simp only [Bool.and_eq_true, Bool.not_eq_true'] at hc
        exact ⟨by simpa using hc.1, seqMatches_length hc.2⟩
      cases hb : bestMatch E s with
      | none => rw [hb] at h; cases h; exact he0
      | some b =>
        rw [hb] at h
        dsimp only at h
        by_cases hl : b.length < e0.length
        · rw [if_pos hl] at h; cases h; exact he0
        · rw [if_neg hl] at h; cases h; exact ih hb
    · rw [if_neg hc] at h; exact ih h

theorem bestMatch_mem {E : List (List Char)} {s e : List Char}
    (h : bestMatch E s = some e) : e ∈ E := by
  induction E with
  | nil => simp [bestMatch] at h
  | cons e0 E ih =>
    simp only [bestMatch] at h
    by_cases hc : (!e0.isEmpty && seqMatches e0 s) = true
    · rw [if_pos hc] at h
      cases hb : bestMatch E s with
      | none => rw [hb] at h; cases h; exact List.mem_cons_self _ _
      | some b =>
        rw [hb] at h
        dsimp only at h
        by_cases hl : b.length < e0.length
        · rw [if_pos hl] at h; cases h; exact List.mem_cons_self _ _
        · rw [if_neg hl] at h; cases h
          exact List.mem_cons_of_mem _ (ih hb)
    · rw [if_neg hc] at h
      exact List.mem_cons_of_mem _ (ih h)

theorem bestMatch_nil_table (s : List Char) : bestMatch [] s = none := rfl

theorem scanEmojiF_congr (E : List (List Char)) :
    ∀ f g s, s.length ≤ f → s.length ≤ g →
      scanEmojiF E f s = scanEmojiF E g s := by
  intro f
  induction f with
  | zero =>
    intro g s hf _
    have : s = [] := List.length_eq_zero.mp (Nat.le_zero.mp hf)
    subst this
    cases g <;> rfl
  | succ f ih =>
    intro g s hf hg
    match s with
    | [] => cases g <;> rfl
    | c :: rest =>
      have h1 : 1 ≤ g := le_trans (by simp) hg
      obtain ⟨g, rfl⟩ : ∃ gp, g = gp + 1 := ⟨g - 1, by omega⟩
      simp only [scanEmojiF]
      have hf1 : rest.length ≤ f := by simpa using hf
      have hg1 : rest.length ≤ g := by simpa using hg
      cases hm : bestMatch E (c :: rest) with
      | some e =>
        have h2 := bestMatch_some hm
        have h3 : 0 < e.length := List.length_pos.mpr h2.1
        have hd : ((c :: rest).drop e.length).length ≤ rest.length := by
          simp only [List.length_drop, List.length_cons]
          omega
        dsimp only
        rw [ih g _ (le_trans hd hf1) (le_trans hd hg1)]
      | none =>
        dsimp only
        rw [ih g rest hf1 hg1]

theorem scanEmoji_nil (E : List (List Char)) : scanEmoji E [] = ([], []) :=
  rfl

theorem scanEmoji_cons_match {E : List (List Char)} {c : Char}
    {rest e : List Char} (hm : bestMatch E (c :: rest) = some e) :
    scanEmoji E (c :: rest) =
      ((e :: (scanEmoji E ((c :: rest).drop e.length)).1),
        (scanEmoji E ((c :: rest).drop e.length)).2) := by
  have h2 := bestMatch_some hm
  have h3 : 0 < e.length := List.length_pos.mpr h2.1
  have hd : ((c :: rest).drop e.length).length ≤ rest.length := by
    simp only [List.length_drop, List.length_cons]
    omega
  simp only [scanEmoji, List.length_cons, scanEmojiF, hm]
  rw [scanEmojiF_congr E rest.length ((c :: rest).drop e.length).length _ hd
    le_rfl]

theorem scanEmoji_cons_nomatch {E : List (List Char)} {c : Char}
    {rest : List Char} (hm : bestMatch E (c :: rest) = none) :
    scanEmoji E (c :: rest) =
      ((scanEmoji E rest).1, c :: (scanEmoji E rest).2) := by
  simp only [scanEmoji, List.length_cons, scanEmojiF, hm]

/-! ## Structural facts about the tokenizer and the emoji scan -/

theorem head_dropWhile_not (p : Char → Bool) :
    ∀ (l : List Char), ∀ c ∈ (l.dropWhile p).head?, ¬ p c := by
  intro l
  induction l with
  | nil => intro c hc; simp at hc
  | cons a l ih =>
    intro c hc
    by_cases ha : p a
    · rw [List.dropWhile_cons_of_pos ha] at hc
      exact ih c hc
    · rw [List.dropWhile_cons_of_neg ha] at hc
      simp only [List.head?_cons, Option.mem_def, Option.some.injEq] at hc
      subst hc
      exact ha

theorem findWords_chars_bounded :
    ∀ (n : ℕ) (s : List Char), s.length ≤ n →
      ∀ w ∈ findWords s, w ≠ [] ∧ ∀ c ∈ w, isWordChar c := by
  intro n
  induction n with
  | zero =>
    intro s hs
    have : s = [] := List.length_eq_zero.mp (Nat.le_zero.mp hs)
    subst this
    simp [findWords_nil]
  | succ n ih =>
    intro s hs w hw
    match s with
    | [] => simp [findWords_nil] at hw
    | c :: rest =>
      have hr : rest.length ≤ n := by simpa using hs
      by_cases hc : isWordChar c
      · rw [findWords_cons_pos hc] at hw
        rcases List.mem_cons.mp hw with h | h
        · subst h
          refine ⟨by simp, ?_⟩
          intro x hx
          rcases List.mem_cons.mp hx with h | h
          · subst h; exact hc
          · exact List.mem_takeWhile_imp h
        · exact ih _ (le_trans (List.dropWhile_sublist _).length_le hr) w h
      · rw [findWords_cons_neg hc] at hw
        exact ih _ hr w hw

theorem findWords_chars {s w : List Char} (hw : w ∈ findWords s) :
    w ≠ [] ∧ ∀ c ∈ w, isWordChar c :=
  findWords_chars_bounded s.length s le_rfl w hw

theorem findWords_infix_bounded :
    ∀ (n : ℕ) (s : List Char), s.length ≤ n →
      ∀ w ∈ findWords s, w <:+: s := by
  intro n
  induction n with
  | zero =>
    intro s hs
    have : s = [] := List.length_eq_zero.mp (Nat.le_zero.mp hs)
    subst this
    simp [findWords_nil]
  | succ n ih =>
    intro s hs w hw
    match s with
    | [] => simp [findWords_nil] at hw
    | c :: rest =>
      have hr : rest.length ≤ n := by simpa using hs
      by_cases hc : isWordChar c
      · rw [findWords_cons_pos hc] at hw
        rcases List.mem_cons.mp hw with h | h
        · subst h
          have hp : (c :: rest.takeWhile isWordChar) <+: (c :: rest) :=
            ⟨rest.dropWhile isWordChar, by
              simp [List.takeWhile_append_dropWhile]⟩
          exact hp.isInfix
        · have h1 : w <:+: rest.dropWhile isWordChar :=
            ih _ (le_trans (List.dropWhile_sublist _).length_le hr) w h
          have h2 : rest.dropWhile isWordChar <:+ (c :: rest) :=
            (List.dropWhile_suffix _).trans (List.suffix_cons c rest)
          exact h1.trans h2.isInfix
      · rw [findWords_cons_neg hc] at hw
        have h1 : w <:+: rest := ih _ hr w hw
        exact h1.trans (List.suffix_cons c rest).isInfix

theorem scanEmoji_length_bounded (E : List (List Char)) :
    ∀ (n : ℕ) (s : List Char), s.length ≤ n →
      (scanEmoji E s).2.length +
        ((scanEmoji E s).1.map List.length).sum = s.length := by
  intro n
  induction n with
  | zero =>
    intro s hs
    have : s = [] := List.length_eq_zero.mp (Nat.le_zero.mp hs)
    subst this
    simp [scanEmoji_nil]
  | succ n ih =>
    intro s hs
    match s with
    | [] => simp [scanEmoji_nil]
    | c :: rest =>
      have hr : rest.length ≤ n := by simpa using hs
      cases hm : bestMatch E (c :: rest) with
      | some e =>
        have h2 := bestMatch_some hm
        have h3 : 0 < e.length := List.length_pos.mpr h2.1
        have h4 : e.length ≤ rest.length + 1 := by simpa using h2.2
        rw [scanEmoji_cons_match hm]
        have hd : ((c :: rest).drop e.length).length ≤ n := by
          simp only [List.length_drop, List.length_cons]
          omega
        have := ih ((c :: rest).drop e.length) hd
        simp only [List.map_cons, List.sum_cons, List.length_drop,
          List.length_cons] at this ⊢
        omega
      | none =>
        rw [scanEmoji_cons_nomatch hm]
        have := ih rest hr
        simp only [List.length_cons]
        omega

theorem scanEmoji_fst_mem_bounded (E : List (List Char)) :
    ∀ (n : ℕ) (s : List Char), s.length ≤ n →
      ∀ x ∈ (scanEmoji E s).1, x ∈ E ∧ x ≠ [] := by
  intro n
  induction n with
  | zero =>
    intro s hs
    have : s = [] := List.length_eq_zero.mp (Nat.le_zero.mp hs)
    subst this
    simp [scanEmoji_nil]
  | succ n ih =>
    intro s hs x hx
    match s with
    | [] => simp [scanEmoji_nil] at hx
    | c :: rest =>
      have hr : rest.length ≤ n := by simpa using hs
      cases hm : bestMatch E (c :: rest) with
      | some e =>
        have h2 := bestMatch_some hm
        have h3 : 0 < e.length := List.length_pos.mpr h2.1
        rw [scanEmoji_cons_match hm] at hx
        rcases List.mem_cons.mp hx with h | h
        · subst h; exact ⟨bestMatch_mem hm, h2.1⟩
        · have hd : ((c :: rest).drop e.length).length ≤ n := by
            simp only [List.length_drop, List.length_cons]
            omega
          exact ih _ hd x h
      | none =>
        rw [scanEmoji_cons_nomatch hm] at hx
        exact ih rest hr x hx

theorem scanEmoji_nil_table : ∀ (s : List Char), scanEmoji [] s = ([], s) := by
  intro s
  induction s with
  | nil => rfl
  | cons c rest ih =>
    rw [scanEmoji_cons_nomatch (bestMatch_nil_table _), ih]

/-! ## The classification loop -/

theorem classifyLoop_go (lexicon : List (List Char)) :
    ∀ (ws : List (List Char)) (acc : List (List Char) × ℕ),
      (ws.foldl
        (fun acc word =>
          if word ∈ lexicon then (acc.1, acc.2 + 1)
          else (acc.1 ++ [word], acc.2)) acc).2 +
      (ws.foldl
        (fun acc word =>
          if word ∈ lexicon then (acc.1, acc.2 + 1)
          else (acc.1 ++ [word], acc.2)) acc).1.length =
      acc.2 + acc.1.length + ws.length := by
  intro ws
  induction ws with
  | nil => intro acc; simp
  | cons w ws ih =>
    intro acc
    simp only [List.foldl_cons, List.length_cons]
    by_cases hm : w ∈ lexicon
    · rw [if_pos hm, ih]
      dsimp only
      omega
    · rw [if_neg hm, ih]
      dsimp only
      simp only [List.length_append, List.length_singleton]
      omega

theorem classifyLoop_partition (lexicon ws : List (List Char)) :
    (classifyLoop lexicon ws).2 + (classifyLoop lexicon ws).1.length =
      ws.length := by
  have := classifyLoop_go lexicon ws ([], 0)
  simpa [classifyLoop] using this

/-! ## Stripping and the evolution score -/

theorem pyStrip_eq_nil {s : List Char} (h : ∀ c ∈ s, pyIsSpace c) :
    pyStrip s = [] := by
  have h1 : s.dropWhile pyIsSpace = [] := List.dropWhile_eq_nil_iff.mpr h
  simp [pyStrip, h1]

theorem score_nonneg (n t : ℕ) : 0 ≤ calculate_evolution_score n t := by
  unfold calculate_evolution_score
  by_cases ht : t = 0
  · simp [ht]
  · rw [if_neg ht]
    positivity

theorem score_le_100 {n t : ℕ} (h : n ≤ t) :
    calculate_evolution_score n t ≤ 100 := by
  unfold calculate_evolution_score
  by_cases ht : t = 0
  · simp [ht]
  · rw [if_neg ht]
    have ht0 : (0 : ℚ) < t := by
      exact_mod_cast Nat.pos_of_ne_zero ht
    have hle : (n : ℚ) / t ≤ 1 := by
      rw [div_le_one ht0]
      exact_mod_cast h
    calc (n : ℚ) / t * 100 ≤ 1 * 100 := by
          exact mul_le_mul_of_nonneg_right hle (by norm_num)
      _ = 100 := by norm_num

theorem score_eq_zero_iff (n t : ℕ) :
    calculate_evolution_score n t = 0 ↔ t = 0 ∨ n = 0 := by
  unfold calculate_evolution_score
  by_cases ht : t = 0
  · simp [ht]
  · rw [if_neg ht]
    have ht0 : (t : ℚ) ≠ 0 := by
      exact_mod_cast ht
    constructor
    · intro h
      rcases mul_eq_zero.mp h with h | h
      · rcases div_eq_zero_iff.mp h with h | h
        · exact Or.inr (by exact_mod_cast h)
        · exact absurd h ht0
      · norm_num at h
    · rintro (h | h)
      · exact absurd h ht
      · subst h; simp

theorem score_formula {n t : ℕ} (ht : t ≠ 0) :
    calculate_evolution_score n t = (n : ℚ) / t * 100 := by
  unfold calculate_evolution_score
  rw [if_neg ht]

/-! ## Maximal-run metatheory for the tokenizer -/

theorem maxRuns_findWords_bounded :
    ∀ (n : ℕ) (s : List Char), s.length ≤ n → MaxRuns s (findWords s) := by
  intro n
  induction n with
  | zero =>
    intro s hs
    have : s = [] := List.length_eq_zero.mp (Nat.le_zero.mp hs)
    subst this
    rw [findWords_nil]
    exact MaxRuns.nil
  | succ n ih =>
    intro s hs
    match s with
    | [] => rw [findWords_nil]; exact MaxRuns.nil
    | c :: rest =>
      have hr : rest.length ≤ n := by simpa using hs
      by_cases hc : isWordChar c
      · rw [findWords_cons_pos hc]
        have hdec : c :: rest =
            (c :: rest.takeWhile isWordChar) ++ rest.dropWhile isWordChar := by
          simp [List.takeWhile_append_dropWhile]
        rw [hdec]
        refine MaxRuns.run (by simp) ?_ ?_ ?_
        · intro x hx
          rcases List.mem_cons.mp hx with h | h
          · subst h; exact hc
          · exact List.mem_takeWhile_imp h
        · exact head_dropWhile_not isWordChar rest
        · exact ih _ (le_trans (List.dropWhile_sublist _).length_le hr)
      · rw [findWords_cons_neg hc]
        exact MaxRuns.skip hc (ih rest hr)

theorem maxRuns_findWords (s : List Char) : MaxRuns s (findWords s) :=
  maxRuns_findWords_bounded s.length s le_rfl

theorem words_decomp_eq :
    ∀ {w1 w2 s1 s2 : List Char},
      w1 ++ s1 = w2 ++ s2 →
      (∀ c ∈ w1, isWordChar c) → (∀ c ∈ w2, isWordChar c) →
      (∀ c ∈ s1.head?, ¬ isWordChar c) → (∀ c ∈ s2.head?, ¬ isWordChar c) →
      w1 = w2 := by
  intro w1
  induction w1 with
  | nil =>
    intro w2 s1 s2 h _ hw2 hh1 _
    cases w2 with
    | nil => rfl
    | cons b w2 =>
      exfalso
      rw [List.nil_append] at h
      have hb : isWordChar b := hw2 b (by simp)
      refine hh1 b ?_ hb
      rw [h]
      simp
  | cons a w1 ih =>
    intro w2 s1 s2 h hw1 hw2 hh1 hh2
    cases w2 with
    | nil =>
      exfalso
      rw [List.nil_append] at h
      have ha : isWordChar a := hw1 a (by simp)
      refine hh2 a ?_ ha
      rw [← h]
      simp
    | cons b w2 =>
      simp only [List.cons_append, List.cons.injEq] at h
      obtain ⟨rfl, h⟩ := h
      rw [ih h (fun c hc => hw1 c (by simp [hc]))
        (fun c hc => hw2 c (by simp [hc])) hh1 hh2]

theorem maxRuns_inv {t : List Char} {ws : List (List Char)}
    (h : MaxRuns t ws) :
    (t = [] ∧ ws = []) ∨
    (∃ c s, t = c :: s ∧ ¬ isWordChar c ∧ MaxRuns s ws) ∨
    (∃ w s ws2, t = w ++ s ∧ ws = w :: ws2 ∧ w ≠ [] ∧
      (∀ c ∈ w, isWordChar c) ∧ (∀ c ∈ s.head?, ¬ isWordChar c) ∧
      MaxRuns s ws2) := by
  cases h with
  | nil => exact Or.inl ⟨rfl, rfl⟩
  | skip hc h => exact Or.inr (Or.inl ⟨_, _, rfl, hc, h⟩)
  | run hw hall hhead hrec =>
    exact Or.inr (Or.inr ⟨_, _, _, rfl, rfl, hw, hall, hhead, hrec⟩)

theorem maxRuns_cons_nonword {c : Char} {s : List Char}
    {ws : List (List Char)} (hc : ¬ isWordChar c)
    (h : MaxRuns (c :: s) ws) : MaxRuns s ws := by
  rcases maxRuns_inv h with ⟨h1, _⟩ | ⟨c2, s2, heq, hc2, h2⟩ |
    ⟨w, s2, ws2, heq, _, hw, hall, _, _⟩
  · exact absurd h1 (by simp)
  · rw [List.cons.injEq] at heq
    obtain ⟨rfl, rfl⟩ := heq
    exact h2
  · exfalso
    obtain ⟨d, w0, rfl⟩ := List.exists_cons_of_ne_nil hw
    simp only [List.cons_append, List.cons.injEq] at heq
    obtain ⟨rfl, -⟩ := heq
    exact hc (hall c (by simp))

theorem maxRuns_unique :
    ∀ {s : List Char} {ws1 ws2 : List (List Char)},
      MaxRuns s ws1 → MaxRuns s ws2 → ws1 = ws2 := by
  intro s ws1 ws2 h1
  induction h1 generalizing ws2 with
  | nil =>
    intro h2
    rcases maxRuns_inv h2 with ⟨_, h⟩ | ⟨c, s2, heq, _, _⟩ |
      ⟨w, s2, ws2b, heq, _, hw, _, _, _⟩
    · exact h.symm
    · exact absurd heq.symm (by simp)
    · exact absurd (List.append_eq_nil.mp heq.symm).1 hw
  | skip hc _ ih =>
    intro h2
    exact ih (maxRuns_cons_nonword hc h2)
  | run hw hall hhead hrec ih =>
    intro h2
    rename_i w s1 ws1b
    obtain ⟨d, w0, rfl⟩ := List.exists_cons_of_ne_nil hw
    have hd : isWordChar d := hall d (by simp)
    rcases maxRuns_inv h2 with ⟨h, _⟩ | ⟨c2, s2, heq, hc2, _⟩ |
      ⟨w2, s2, ws2b, heq, hws, hw2, hall2, hhead2, hrec2⟩
    · exact absurd h (by simp)
    · exfalso
      simp only [List.cons_append, List.cons.injEq] at heq
      obtain ⟨rfl, -⟩ := heq
      exact hc2 hd
    · have hww : d :: w0 = w2 :=
        words_decomp_eq heq hall hall2 hhead hhead2
      subst hww
      have hss : s1 = s2 := List.append_cancel_left heq
      subst hss
      rw [hws, ih hrec2]

/-! ## Claim theorems -/

/-- **C1.** Evaluation of the pipeline at the spec's scenario input
`"ਮੈਂ ਘਰ ਜਾ ਰਿਹਾ ਹਾਂ 😊"` against the built-in dictionary (which contains
"ਮੈਂ", "ਘਰ", "ਜਾ", "ਹਾਂ" but not "ਰਿਹਾ").  Because CPython's `\w` does not
match the Gurmukhi combining vowel signs and bindi, the code splits the
five Punjabi words into six fragments (ਮ, ਘਰ, ਜ, ਰ, ਹ, ਹ) and reports
total_word_count = 6, known_count = 1, five neologisms, and a divergence
score of 250/3 ≈ 83.3 — not the 5 / 4 / 1 / 20.0 the claim states. -/
theorem scenario_pipeline_divergence :
    main emojiTable STANDARD_PUNJABI_DICT scenarioInput =
      .ok (analyzeCore emojiTable STANDARD_PUNJABI_DICT scenarioInput) ∧
    (analyzeCore emojiTable STANDARD_PUNJABI_DICT
      scenarioInput).total_word_count = 6 ∧
    (analyzeCore emojiTable STANDARD_PUNJABI_DICT
      scenarioInput).known_count = 1 ∧
    (analyzeCore emojiTable STANDARD_PUNJABI_DICT scenarioInput).neologisms =
      [['ਮ'], ['ਜ'], ['ਰ'], ['ਹ'], ['ਹ']] ∧
    (analyzeCore emojiTable STANDARD_PUNJABI_DICT scenarioInput).all_emojis =
      [['😊']] ∧
    (analyzeCore emojiTable STANDARD_PUNJABI_DICT
      scenarioInput).evolution_score = 250 / 3 ∧
    (250 : ℚ) / 3 ≠ 20 ∧
    "ਮੈਂ".toList ∈ STANDARD_PUNJABI_DICT ∧
    "ਘਰ".toList ∈ STANDARD_PUNJABI_DICT ∧
    "ਜਾ".toList ∈ STANDARD_PUNJABI_DICT ∧
    "ਹਾਂ".toList ∈ STANDARD_PUNJABI_DICT ∧
    "ਰਿਹਾ".toList ∉ STANDARD_PUNJABI_DICT := by
  have hscore : (analyzeCore emojiTable STANDARD_PUNJABI_DICT
      scenarioInput).evolution_score = 250 / 3 := by
    have h1 : (analyzeCore emojiTable STANDARD_PUNJABI_DICT
        scenarioInput).evolution_score =
        calculate_evolution_score
          (analyzeCore emojiTable STANDARD_PUNJABI_DICT
            scenarioInput).neologisms.length
          (analyzeCore emojiTable STANDARD_PUNJABI_DICT
            scenarioInput).total_word_count := rfl
    have h2 : (analyzeCore emojiTable STANDARD_PUNJABI_DICT
        scenarioInput).neologisms.length = 5 := by decide
    have h3 : (analyzeCore emojiTable STANDARD_PUNJABI_DICT
        scenarioInput).total_word_count = 6 := by decide
    rw [h1, h2, h3]
    norm_num [calculate_evolution_score]
  refine ⟨?_, by decide, by decide, by decide, by decide, hscore,
    by norm_num, by decide, by decide, by decide, by decide, by decide⟩
  rw [main, if_neg (by decide)]

/-- **C2.** For every emoji table, lexicon and input text, classification
partitions the word tokens: the known-word count plus the number of
neologisms equals the total word count. -/
theorem classification_partition (E lexicon : List (List Char))
    (text : List Char) :
    (analyzeCore E lexicon text).known_count +
      (analyzeCore E lexicon text).neologisms.length =
      (analyzeCore E lexicon text).total_word_count :=
  classifyLoop_partition lexicon
    ((clean_text_gurmukhi E text).filter (fun w => !(pyStrip w).isEmpty))

/-- **C3.** For every `n ≤ t`, the evolution score is `0` when `t = 0` and
`100·n/t` otherwise; it lies in `[0, 100]` and vanishes exactly when
`t = 0` or `n = 0`. -/
theorem evolution_score_spec (n t : ℕ) (h : n ≤ t) :
    calculate_evolution_score n t =
      (if t = 0 then 0 else 100 * (n : ℚ) / t) ∧
    0 ≤ calculate_evolution_score n t ∧
    calculate_evolution_score n t ≤ 100 ∧
    (calculate_evolution_score n t = 0 ↔ t = 0 ∨ n = 0) := by
  refine ⟨?_, score_nonneg n t, score_le_100 h, score_eq_zero_iff n t⟩
  by_cases ht : t = 0
  · simp [calculate_evolution_score, ht]
  · rw [score_formula ht, if_neg ht]
    ring

/-- Witness for **C3** at `n = 1`, `t = 5` (score 20). -/
theorem evolution_score_spec_witness :
    (1 ≤ 5) ∧
    (calculate_evolution_score 1 5 =
        (if (5 : ℕ) = 0 then 0 else 100 * (1 : ℚ) / 5) ∧
      0 ≤ calculate_evolution_score 1 5 ∧
      calculate_evolution_score 1 5 ≤ 100 ∧
      (calculate_evolution_score 1 5 = 0 ↔ (5 : ℕ) = 0 ∨ (1 : ℕ) = 0)) :=
  ⟨by norm_num, evolution_score_spec 1 5 (by norm_num)⟩

/-- **C4.** Every matched symbol region is removed before word extraction:
the residual text's length plus the total length of the extracted symbols
equals the input's length (no matched character survives, none is lost);
every word token is drawn from the residual text; and — since emoji
characters are not word characters — no extracted symbol occurs inside
any word token. -/
theorem symbol_regions_removed (E : List (List Char)) (text : List Char) :
    (replace_emoji E text).length +
      ((extract_emojis E text).map List.length).sum = text.length ∧
    (∀ w ∈ clean_text_gurmukhi E text, w <:+: replace_emoji E text) ∧
    ((∀ e ∈ E, ∀ c ∈ e, ¬ isWordChar c) →
      ∀ x ∈ extract_emojis E text, ∀ w ∈ clean_text_gurmukhi E text,
        ¬ x <:+: w) := by
  refine ⟨scanEmoji_length_bounded E text.length text le_rfl, ?_, ?_⟩
  · intro w hw
    exact findWords_infix_bounded _ _ le_rfl w (List.mem_of_mem_filter hw)
  · intro hE x hx w hw hinf
    have hxE := scanEmoji_fst_mem_bounded E text.length text le_rfl x hx
    obtain ⟨c0, x0, rfl⟩ := List.exists_cons_of_ne_nil hxE.2
    have hc0 : ¬ isWordChar c0 := hE _ hxE.1 c0 (by simp)
    have hwchars := findWords_chars (List.mem_of_mem_filter hw)
    exact hc0 (hwchars.2 c0 (hinf.sublist.subset (by simp)))

/-- Witness for **C4** at the scenario input with the 😊 table. -/
theorem symbol_regions_removed_witness :
    (∀ e ∈ emojiTable, ∀ c ∈ e, ¬ isWordChar c) ∧
    (∀ x ∈ extract_emojis emojiTable scenarioInput,
      ∀ w ∈ clean_text_gurmukhi emojiTable scenarioInput, ¬ x <:+: w) :=
  ⟨by decide,
    (symbol_regions_removed emojiTable scenarioInput).2.2 (by decide)⟩

/-- **C5 counterexample.** The token "Ⅻ" (U+216B, a Roman-numeral
character) is excluded by the code's `isnumeric` filter although its
character is not a decimal digit, so "excluded iff all characters are
decimal digits" is false. -/
theorem numeric_filter_counterexample :
    findWords (replace_emoji [] (String.toList "Ⅻ")) = [['Ⅻ']] ∧
    clean_text_gurmukhi [] (String.toList "Ⅻ") = [] ∧
    specIsDecimalDigit 'Ⅻ' = false :=
  ⟨by decide, by decide, by decide⟩

/-- **C5 (amended).** A candidate token is excluded from the word list iff
all of its characters are numeric in Python's `str.isnumeric` sense
(`Numeric_Type` Decimal, Digit or Numeric) — a strictly larger class than
the decimal digits; candidate tokens are never empty. -/
theorem numeric_filter_amended (E : List (List Char)) (text : List Char)
    (w : List Char) (h : w ∈ findWords (replace_emoji E text)) :
    (w ∉ clean_text_gurmukhi E text ↔ w.all pyIsNumericChar) ∧ w ≠ [] := by
  have hne := (findWords_chars h).1
  have hempty : w.isEmpty = false := by
    cases w with
    | nil => exact absurd rfl hne
    | cons a l => rfl
  have hself : pyIsNumeric w = w.all pyIsNumericChar := by
    simp [pyIsNumeric, hempty]
  refine ⟨⟨?_, ?_⟩, hne⟩
  · intro hnot
    rw [← hself]
    by_contra hx
    apply hnot
    simp only [clean_text_gurmukhi]
    refine List.mem_filter.mpr ⟨h, ?_⟩
    simp only [Bool.not_eq_true] at hx
    simp [hx]
  · intro hall hmem
    simp only [clean_text_gurmukhi] at hmem
    have h2 := (List.mem_filter.mp hmem).2
    rw [← hself] at hall
    simp [hall] at h2

/-- Witness for **C5 (amended)**: "2024" is a token of `"2024 ਸਾਲ"` and is
excluded from the word list. -/
theorem numeric_filter_amended_witness :
    ['2', '0', '2', '4'] ∉
      clean_text_gurmukhi [] (String.toList "2024 ਸਾਲ") :=
  ((numeric_filter_amended [] (String.toList "2024 ਸਾਲ") ['2', '0', '2', '4']
    (by decide)).1).mpr (by decide)

/-- **C6 counterexample.** On input `"a_b"` the code produces the word
token `a_b`, which contains `_`: a character that is neither a Unicode
letter nor a digit.  CPython's `\w` includes the underscore, so "word
tokens are exactly maximal runs of letters or digits" is false. -/
theorem letters_digits_counterexample :
    clean_text_gurmukhi [] (String.toList "a_b") = [['a', '_', 'b']] ∧
    '_' ∈ ['a', '_', 'b'] ∧ specIsLetterOrDigit '_' = false :=
  ⟨by decide, by decide, by decide⟩

/-- **C6 (amended).** On the symbol-stripped text, the word tokens produced
are exactly (soundness and uniqueness) the maximal runs of CPython word
characters — Unicode letters, numeric characters or underscore, but not
combining marks — in left-to-right order. -/
theorem tokenizer_maximal_runs (E : List (List Char)) (text : List Char) :
    MaxRuns (replace_emoji E text) (findWords (replace_emoji E text)) ∧
    ∀ ws, MaxRuns (replace_emoji E text) ws →
      ws = findWords (replace_emoji E text) :=
  ⟨maxRuns_findWords _, fun _ hws => maxRuns_unique hws (maxRuns_findWords _)⟩

/-- Witness for **C6 (amended)** at the input `"a_b"`. -/
theorem tokenizer_maximal_runs_witness :
    [['a', '_', 'b']] = findWords (replace_emoji [] (String.toList "a_b")) := by
  refine (tokenizer_maximal_runs [] (String.toList "a_b")).2 [['a', '_', 'b']] ?_
  have hrepl : replace_emoji [] (String.toList "a_b") =
      String.toList "a_b" := by
    simp [replace_emoji, scanEmoji_nil_table]
  rw [hrepl]
  have hdec : String.toList "a_b" = ['a', '_', 'b'] ++ [] := by decide
  rw [hdec]
  exact MaxRuns.run (by decide) (by decide) (by simp) MaxRuns.nil

/-- **C7.** Blank or whitespace-only input is rejected with the
empty-input error before any analysis runs; no report is produced. -/
theorem blank_input_rejected (E lexicon : List (List Char))
    (text : List Char) (h : ∀ c ∈ text, pyIsSpace c) :
    main E lexicon text = .error .emptyInput := by
  have h1 : (pyStrip text).isEmpty = true := by
    rw [pyStrip_eq_nil h]
    rfl
  rw [main, if_pos h1]

/-- Witness for **C7** at the whitespace-only input `"  "`. -/
theorem blank_input_rejected_witness :
    main [] [] (String.toList "  ") = .error .emptyInput :=
  blank_input_rejected [] [] (String.toList "  ") (by decide)

/-- **C8 counterexample.** Fed the inconsistent counts
`neologism_count = 5 > total_words = 2`, the aggregator does not fail: it
silently returns the out-of-range score 250. -/
theorem aggregator_counterexample :
    calculate_evolution_score 5 2 = 250 ∧
    ¬ calculate_evolution_score 5 2 ≤ 100 := by
  norm_num [calculate_evolution_score]

/-- **C8 (amended).** The aggregator performs no validation: for any
inconsistent counts `t < n` with `t ≠ 0` it returns `100·n/t`, which
exceeds 100, instead of failing fast. -/
theorem aggregator_amended (n t : ℕ) (h1 : t ≠ 0) (h2 : t < n) :
    calculate_evolution_score n t = (n : ℚ) / t * 100 ∧
    100 < calculate_evolution_score n t := by
  refine ⟨score_formula h1, ?_⟩
  rw [score_formula h1]
  have ht0 : (0 : ℚ) < t := by exact_mod_cast Nat.pos_of_ne_zero h1
  have hgt : (1 : ℚ) < (n : ℚ) / t := by
    rw [lt_div_iff₀ ht0, one_mul]
    exact_mod_cast h2
  calc (100 : ℚ) = 1 * 100 := by norm_num
    _ < (n : ℚ) / t * 100 := mul_lt_mul_of_pos_right hgt (by norm_num)

/-- Witness for **C8 (amended)** at `n = 5`, `t = 2`. -/
theorem aggregator_amended_witness :
    calculate_evolution_score 5 2 = (5 : ℚ) / 2 * 100 ∧
    100 < calculate_evolution_score 5 2 :=
  aggregator_amended 5 2 (by norm_num) (by norm_num)

/-- **C10.** The core pipeline is total: on every input text (empty,
whitespace-only, punctuation-only, or arbitrary Unicode) the analysis body
produces a well-defined report whose score is the guarded quotient — `0`
when there are no words, never a division by zero — lies in `[0, 100]`,
and whose counts partition the word tokens. -/
theorem pipeline_totality (E lexicon : List (List Char)) (text : List Char) :
    0 ≤ (analyzeCore E lexicon text).evolution_score ∧
    (analyzeCore E lexicon text).evolution_score ≤ 100 ∧
    ((analyzeCore E lexicon text).total_word_count = 0 →
      (analyzeCore E lexicon text).evolution_score = 0) ∧
    (analyzeCore E lexicon text).evolution_score =
      calculate_evolution_score
        (analyzeCore E lexicon text).neologisms.length
        (analyzeCore E lexicon text).total_word_count ∧
    (analyzeCore E lexicon text).known_count +
      (analyzeCore E lexicon text).neologisms.length =
      (analyzeCore E lexicon text).total_word_count := by
  have hpart : (analyzeCore E lexicon text).known_count +
      (analyzeCore E lexicon text).neologisms.length =
      (analyzeCore E lexicon text).total_word_count :=
    classifyLoop_partition lexicon
      ((clean_text_gurmukhi E text).filter (fun w => !(pyStrip w).isEmpty))
  have hscore : (analyzeCore E lexicon text).evolution_score =
      calculate_evolution_score
        (analyzeCore E lexicon text).neologisms.length
        (analyzeCore E lexicon text).total_word_count := rfl
  have hle : (analyzeCore E lexicon text).neologisms.length ≤
      (analyzeCore E lexicon text).total_word_count := by omega
  refine ⟨?_, ?_, ?_, hscore, hpart⟩
  · rw [hscore]
    exact score_nonneg _ _
  · rw [hscore]
    exact score_le_100 hle
  · intro h0
    rw [hscore, h0]
    simp [calculate_evolution_score]

end LafzVigyan
